import Mathlib

/-!
Verification of the video composition service (`VideoComposer.ts`).

The development shallowly embeds the pure logic of the composer: scene
timeline construction and active-scene lookup (`composeVideo` / `animate`),
progress reporting, the four caption layout algorithms (`drawKaraokeCaption`,
`drawWordByWordCaption`, `drawSentenceCaption`, `drawMinimalCaption`), the
caption selection of `drawFrame`, and the cover-scaling geometry of
`drawImageCover`.  Times and pixel quantities are rationals (the JavaScript
numbers involved); host text measurement (`ctx.measureText`) is an abstract
parameter; `Math.floor` / `Math.ceil` are `Int.floor` / `Int.ceil` on ℚ.
-/

set_option autoImplicit false

namespace AutoVid

/-- `WordTiming` from `types/index.ts`: one word with its spoken time span. -/
structure WordTiming where
  word : String
  start : ℚ
  «end» : ℚ
deriving Repr, DecidableEq

/-- `Caption` from `types/index.ts`. -/
structure Caption where
  id : String
  startTime : ℚ
  endTime : ℚ
  text : String
  words : Option (List WordTiming)
deriving Repr, DecidableEq

/-- `Scene` from `types/index.ts` (the binary `imageBlob` is not modelled;
composition only reads `imageUrl` and `duration`). -/
structure Scene where
  id : String
  index : ℕ
  text : String
  imagePrompt : String
  duration : ℚ
  imageUrl : Option String
deriving Repr, DecidableEq

/-- `CaptionTemplate` from `types/index.ts`. -/
inductive CaptionTemplate
  | karaoke | wordByWord | sentence | minimal
deriving Repr, DecidableEq

/-- `CaptionPosition` from `types/index.ts`. -/
inductive CaptionPosition
  | top | center | bottom
deriving Repr, DecidableEq

/-- The `'small' | 'medium' | 'large'` size class of `CaptionSettings.fontSize`. -/
inductive FontSizeClass
  | small | medium | large
deriving Repr, DecidableEq

/-- `CaptionSettings` from `types/index.ts`. -/
structure CaptionSettings where
  template : CaptionTemplate
  position : CaptionPosition
  fontSize : FontSizeClass
  fontFamily : String
  textColor : String
  backgroundColor : String
deriving Repr, DecidableEq

/-- `DEFAULT_CAPTION_SETTINGS` from `types/index.ts`. -/
def DEFAULT_CAPTION_SETTINGS : CaptionSettings :=
  { template := .karaoke
    position := .bottom
    fontSize := .large
    fontFamily := "Inter"
    textColor := "#ffffff"
    backgroundColor := "rgba(0, 0, 0, 0.8)" }

/-! ## Timeline builder (`composeVideo`, lines 73-84) -/

/-- One entry of the `sceneTimings` array built by `composeVideo`: the scene's
absolute time interval together with the index of its loaded image in the
`images` array (`images[i]` is the image of scene `i`). -/
structure SceneTiming where
  start : ℚ
  «end» : ℚ
  image : ℕ
deriving Repr, DecidableEq

/-- `scenes.reduce((acc, s) => acc + s.duration, 0)` — the `totalDuration`
of `composeVideo`. -/
def totalDuration (scenes : List Scene) : ℚ :=
  scenes.foldl (fun acc s => acc + s.duration) 0

/-- The loop of `composeVideo` lines 77-84: starting from `currentTime = t`
and image index `i`, push `{start: currentTime, end: currentTime + duration,
image: images[i]}` and advance `currentTime`. -/
def buildTimings : List Scene → ℚ → ℕ → List SceneTiming
  | [], _, _ => []
  | s :: rest, t, i => ⟨t, t + s.duration, i⟩ :: buildTimings rest (t + s.duration) (i + 1)

/-- The `sceneTimings` array of `composeVideo` (loop starts at
`currentTime = 0`, image index 0). -/
def sceneTimings (scenes : List Scene) : List SceneTiming :=
  buildTimings scenes 0 0

/-- Sum of the durations of a list of scenes, in `List.sum` form. -/
def durSum (scenes : List Scene) : ℚ :=
  (scenes.map Scene.duration).sum

/-! ## Karaoke window selection (`drawKaraokeCaption`, lines 266-276) -/

/-- The visible-window computation of `drawKaraokeCaption`:
`wordsPerLine = 4`, `totalWordsToShow = 8`,
`startIdx = max(0, currentWordIdx - wordsPerLine + 1)`,
`endIdx = min(words.length, startIdx + totalWordsToShow)`,
re-clamped to `startIdx = max(0, endIdx - totalWordsToShow)` when the window
is truncated by the end of the list.  `currentWordIdx` may be `-1`. -/
def karaokeWindow (len : ℕ) (currentWordIdx : ℤ) : ℤ × ℤ :=
  let wordsPerLine : ℤ := 4
  let totalWordsToShow : ℤ := wordsPerLine * 2
  let startIdx := max 0 (currentWordIdx - wordsPerLine + 1)
  let endIdx := min (len : ℤ) (startIdx + totalWordsToShow)
  let startIdx' :=
    if endIdx = (len : ℤ) ∧ endIdx - startIdx < totalWordsToShow then
      max 0 (endIdx - totalWordsToShow)
    else startIdx
  (startIdx', endIdx)

/-- C4: For every word-timing list length `len` and every current-word index
`i` produced by the karaoke selection step (`-1` in the no-match case, else a
valid index), the visible window is `[max(0, i-3), min(len, max(0, i-3)+8))`,
re-clamped to start at `max(0, end-8)` when truncated by the end of the list;
it holds at most 8 words and all its indices lie within `[0, len)`. -/
theorem karaokeWindow_bounds (len : ℕ) (i : ℤ)
    (_h : i = -1 ∨ (0 ≤ i ∧ i < (len : ℤ))) :
    0 ≤ (karaokeWindow len i).1 ∧
    (karaokeWindow len i).1 ≤ (karaokeWindow len i).2 ∧
    (karaokeWindow len i).2 ≤ (len : ℤ) ∧
    (karaokeWindow len i).2 - (karaokeWindow len i).1 ≤ 8 ∧
    (karaokeWindow len i).2 = min (len : ℤ) (max 0 (i - 3) + 8) ∧
    ((karaokeWindow len i).1 =
      if (karaokeWindow len i).2 = (len : ℤ) ∧
          (karaokeWindow len i).2 - max 0 (i - 3) < 8 then
        max 0 ((karaokeWindow len i).2 - 8)
      else max 0 (i - 3)) := by
  simp only [karaokeWindow]
  split <;> simp_all <;> omega

/-- Witness for `karaokeWindow_bounds` at `len = 5`, `i = 2`. -/
theorem karaokeWindow_bounds_witness :
    0 ≤ (karaokeWindow 5 2).1 ∧
    (karaokeWindow 5 2).1 ≤ (karaokeWindow 5 2).2 ∧
    (karaokeWindow 5 2).2 ≤ (5 : ℤ) ∧
    (karaokeWindow 5 2).2 - (karaokeWindow 5 2).1 ≤ 8 := by
  have h := karaokeWindow_bounds 5 2 (Or.inr (by decide))
  exact ⟨h.1, h.2.1, h.2.2.1, h.2.2.2.1⟩

/-! ## Text primitives shared by the caption templates -/

/-- Core of `jsSplitOnSpace`: JavaScript `String.prototype.split(' ')` on a
character list — a cut at every separator character, so consecutive
separators produce empty fragments and the result is never empty. -/
def splitCharGo (sep : Char) : List Char → List Char → List String
  | [], acc => [String.mk acc.reverse]
  | c :: cs, acc =>
    if c = sep then String.mk acc.reverse :: splitCharGo sep cs []
    else splitCharGo sep cs (c :: acc)

/-- JavaScript `text.split(' ')` as used by `drawSentenceCaption` and
`drawMinimalCaption`. -/
def jsSplitOnSpace (s : String) : List String :=
  splitCharGo ' ' s.data []

/-- JavaScript `text.split(/\s+/)` as used by `drawWordByWordCaption`:
cut at every maximal run of whitespace (a leading or trailing run still
yields an empty fragment, as in JavaScript). -/
def splitWsGo : List Char → List Char → List String
  | [], acc => [String.mk acc.reverse]
  | c :: cs, acc =>
    if c.isWhitespace then
      String.mk acc.reverse :: splitWsGo (cs.dropWhile Char.isWhitespace) []
    else splitWsGo cs (c :: acc)
  termination_by cs _ => cs.length
  decreasing_by
  · exact Nat.lt_succ_of_le (List.dropWhile_sublist Char.isWhitespace).length_le
  · exact Nat.lt_succ_self _

/-- JavaScript `caption.text.split(/\s+/)` (line 372). -/
def jsSplitWs (s : String) : List String :=
  splitWsGo s.data []

/-- JavaScript `Array.prototype.slice(start, end)` with the clamping rules
of ECMAScript (negative indices count from the end). -/
def jsSlice {α : Type} (l : List α) (s e : ℤ) : List α :=
  let len : ℤ := l.length
  let s' := if s < 0 then max (len + s) 0 else min s len
  let e' := if e < 0 then max (len + e) 0 else min e len
  (l.drop s'.toNat).take (e' - s').toNat

/-- JavaScript `String.prototype.slice(0, n)`: the first `n` characters. -/
def jsStringTake (s : String) (n : ℕ) : String :=
  String.mk (s.data.take n)

/-- `getFontSize` (lines 484-492): `baseSize = min(width, height) / 18`,
scaled by the size class. -/
def getFontSize (width height : ℚ) : FontSizeClass → ℚ
  | .small => min width height / 18 * (7/10)
  | .medium => min width height / 18
  | .large => min width height / 18 * (13/10)

/-- `getYPosition` (lines 494-500). -/
def getYPosition (height : ℚ) : CaptionPosition → ℚ
  | .top => height * (12/100)
  | .center => height * (50/100)
  | .bottom => height * (82/100)

/-- `progress = (currentTime - caption.startTime) /
(caption.endTime - caption.startTime)` — the proportional-reveal progress
used by the sentence, minimal, and word-by-word fallback paths. -/
def captionProgress (caption : Caption) (t : ℚ) : ℚ :=
  (t - caption.startTime) / (caption.endTime - caption.startTime)

/-! ## Sentence template (`drawSentenceCaption`, lines 393-452) -/

/-- The visible word range of `drawSentenceCaption` (lines 410-413):
`endWordIdx = min(len, ceil(progress*len) + 4)`,
`startWordIdx = max(0, endWordIdx - 8)`; returned as (start, end). -/
def sentenceWindow (len : ℕ) (progress : ℚ) : ℤ × ℤ :=
  let endWordIdx := min (len : ℤ) (Int.ceil (progress * len) + 4)
  (max 0 (endWordIdx - 8), endWordIdx)

/-- The greedy two-line wrapping loop of `drawSentenceCaption`
(lines 418-431), parametrized by the host's text measure
(`ctx.measureText(s).width`).  State: pending words, accumulated `lines`,
current `currentLine`; the loop breaks once two lines are full, and the
trailing `currentLine` is only flushed while fewer than two lines exist. -/
def wrapLinesGo (measure : String → ℚ) (maxWidth : ℚ) :
    List String → List String → String → List String
  | [], lines, currentLine =>
    if currentLine ≠ "" ∧ lines.length < 2 then lines ++ [currentLine] else lines
  | w :: ws, lines, currentLine =>
    if measure (currentLine ++ (if currentLine ≠ "" then " " else "") ++ w) > maxWidth ∧
        currentLine ≠ "" then
      if (lines ++ [currentLine]).length ≥ 2 then lines ++ [currentLine]
      else wrapLinesGo measure maxWidth ws (lines ++ [currentLine]) w
    else wrapLinesGo measure maxWidth ws lines
      (currentLine ++ (if currentLine ≠ "" then " " else "") ++ w)

/-- `drawSentenceCaption`: the list of rendered text lines. -/
def drawSentenceCaption (measure : String → ℚ) (width : ℚ)
    (caption : Caption) (t : ℚ) : List String :=
  let maxWidth := width * (85/100)
  let words := jsSplitOnSpace caption.text
  let win := sentenceWindow words.length (captionProgress caption t)
  let visibleText := String.intercalate " " (jsSlice words win.1 win.2)
  wrapLinesGo measure maxWidth (jsSplitOnSpace visibleText) [] ""

/-! ## Minimal template (`drawMinimalCaption`, lines 457-482) -/

/-- The visible word range of `drawMinimalCaption` (lines 474-477):
`endIdx = min(len, ceil(progress*len) + 3)`, `startIdx = max(0, endIdx - 6)`. -/
def minimalWindow (len : ℕ) (progress : ℚ) : ℤ × ℤ :=
  let endIdx := min (len : ℤ) (Int.ceil (progress * len) + 3)
  (max 0 (endIdx - 6), endIdx)

/-- `drawMinimalCaption`: the single rendered line, `text.slice(0, 50)`. -/
def drawMinimalCaption (caption : Caption) (t : ℚ) : String :=
  let words := jsSplitOnSpace caption.text
  let win := minimalWindow words.length (captionProgress caption t)
  let text := String.intercalate " " (jsSlice words win.1 win.2)
  jsStringTake text 50

/-- The wrapping loop never yields more than two lines when started with
fewer than two accumulated lines. -/
theorem wrapLinesGo_length_le (measure : String → ℚ) (maxWidth : ℚ) :
    ∀ (ws lines : List String) (cur : String), lines.length < 2 →
      (wrapLinesGo measure maxWidth ws lines cur).length ≤ 2 := by
  intro ws
  induction ws with
  | nil =>
    intro lines cur h
    simp only [wrapLinesGo]
    split
    · simp only [List.length_append, List.length_cons, List.length_nil]
      omega
    · omega
  | cons w ws ih =>
    intro lines cur h
    simp only [wrapLinesGo]
    by_cases hc : measure (cur ++ (if cur ≠ "" then " " else "") ++ w) > maxWidth ∧ cur ≠ ""
    · rw [if_pos hc]
      by_cases h2 : (lines ++ [cur]).length ≥ 2
      · rw [if_pos h2]
        simp only [List.length_append, List.length_cons, List.length_nil]
        omega
      · rw [if_neg h2]
        refine ih _ _ ?_
        simp only [List.length_append, List.length_cons, List.length_nil] at h2 ⊢
        omega
    · rw [if_neg hc]
      exact ih _ _ h

/-- The text of a list of words joined by single spaces (the content that a
list of wrapped lines carries). -/
def joinWords : List String → String
  | [] => ""
  | [w] => w
  | w :: x :: ws => w ++ " " ++ joinWords (x :: ws)

theorem str_append_ne_empty (a b : String) (h : a ≠ "") : a ++ b ≠ "" := by
  intro hc
  apply h
  have hd : a.data ++ b.data = [] := congrArg String.data hc
  have ha : a.data = [] := (List.append_eq_nil.mp hd).1
  cases a with
  | mk l =>
    cases ha
    rfl

theorem joinWords_cons_ne (a : String) (l : List String) (h : l ≠ []) :
    joinWords (a :: l) = a ++ " " ++ joinWords l := by
  cases l with
  | nil => exact absurd rfl h
  | cons x xs => rfl

theorem str_append_assoc (a b c : String) : a ++ b ++ c = a ++ (b ++ c) := by
  cases a with
  | mk la =>
    cases b with
    | mk lb =>
      cases c with
      | mk lc =>
        show String.mk (la ++ lb ++ lc) = String.mk (la ++ (lb ++ lc))
        rw [List.append_assoc]

theorem joinWords_glue (a b : String) (l : List String) :
    joinWords ((a ++ " " ++ b) :: l) = a ++ " " ++ joinWords (b :: l) := by
  cases l with
  | nil => rfl
  | cons x xs =>
    show a ++ " " ++ b ++ " " ++ joinWords (x :: xs) =
      a ++ " " ++ (b ++ " " ++ joinWords (x :: xs))
    rw [str_append_assoc (a ++ " ") b " ",
      str_append_assoc (a ++ " ") (b ++ " ") (joinWords (x :: xs))]

/-- The wrapping loop appends, after the lines it was given, new lines whose
joined content is the current line followed by exactly a prefix of the
pending words: every word it drops is dropped from the tail. -/
theorem wrapLinesGo_content (measure : String → ℚ) (maxWidth : ℚ) :
    ∀ (ws lines : List String) (cur : String), cur ≠ "" →
      (∀ w ∈ ws, w ≠ "") → lines.length < 2 →
      ∃ m newLines, m ≤ ws.length ∧ newLines ≠ [] ∧
        wrapLinesGo measure maxWidth ws lines cur = lines ++ newLines ∧
        joinWords newLines = joinWords (cur :: ws.take m) := by
  intro ws
  induction ws with
  | nil =>
    intro lines cur hcur _ hlines
    refine ⟨0, [cur], Nat.le_refl 0, by simp, ?_, rfl⟩
    simp only [wrapLinesGo]
    rw [if_pos ⟨hcur, hlines⟩]
  | cons w ws ih =>
    intro lines cur hcur hne hlines
    have hw : w ≠ "" := hne w (by simp)
    have hne' : ∀ x ∈ ws, x ≠ "" := fun x hx => hne x (List.mem_cons_of_mem w hx)
    simp only [wrapLinesGo]
    rw [if_pos hcur]
    by_cases hov : measure (cur ++ " " ++ w) > maxWidth ∧ cur ≠ ""
    · rw [if_pos hov]
      by_cases h2 : (lines ++ [cur]).length ≥ 2
      · rw [if_pos h2]
        exact ⟨0, [cur], by omega, by simp, rfl, rfl⟩
      · rw [if_neg h2]
        obtain ⟨m, nl, hm, hnl, heq, hjoin⟩ := ih (lines ++ [cur]) w hw hne' (by
          simp only [List.length_append, List.length_cons, List.length_nil] at h2 ⊢
          omega)
        refine ⟨m + 1, cur :: nl, ?_, by simp, ?_, ?_⟩
        · simp only [List.length_cons]
          omega
        · rw [heq, List.append_assoc]
          rfl
        · rw [joinWords_cons_ne cur nl hnl, hjoin, List.take_succ_cons]
          rfl
    · rw [if_neg hov]
      obtain ⟨m, nl, hm, hnl, heq, hjoin⟩ := ih lines (cur ++ " " ++ w)
        (str_append_ne_empty _ w (str_append_ne_empty cur " " hcur)) hne' hlines
      refine ⟨m + 1, nl, ?_, hnl, heq, ?_⟩
      · simp only [List.length_cons]
        omega
      · rw [hjoin, List.take_succ_cons]
        exact joinWords_glue cur w (ws.take m)

/-- From its top-level call the wrapping loop renders the join of exactly a
prefix of its non-empty word list: overflowing words are dropped from the
tail, never the head. -/
theorem wrapLines_tail_drop (measure : String → ℚ) (maxWidth : ℚ)
    (ws : List String) (hne : ∀ w ∈ ws, w ≠ "") :
    ∃ m, m ≤ ws.length ∧
      joinWords (wrapLinesGo measure maxWidth ws [] "") = joinWords (ws.take m) := by
  cases ws with
  | nil => exact ⟨0, Nat.le_refl 0, by simp [wrapLinesGo]⟩
  | cons w ws' =>
    have hw : w ≠ "" := hne w (by simp)
    have hstep : wrapLinesGo measure maxWidth (w :: ws') [] "" =
        wrapLinesGo measure maxWidth ws' [] w := by
      simp only [wrapLinesGo]
      rw [if_neg (by simp)]
      congr 1
    obtain ⟨m, nl, hm, hnl, heq, hjoin⟩ := wrapLinesGo_content measure maxWidth ws' [] w hw
      (fun x hx => hne x (List.mem_cons_of_mem w hx)) (by simp)
    refine ⟨m + 1, ?_, ?_⟩
    · simp only [List.length_cons]
      omega
    · rw [hstep, heq]
      simp only [List.nil_append]
      rw [hjoin, List.take_succ_cons]

/-- C7: For every caption, measure, width and timestamp, the sentence
template renders at most 2 wrapped lines and the content it renders is the
space-join of a prefix of the (non-empty) words given to the wrap — words
that overflow are dropped from the tail, never the head — and the minimal
template renders a single line of at most 50 characters. -/
theorem sentence_two_lines_minimal_fifty (measure : String → ℚ) (width : ℚ)
    (caption : Caption) (t : ℚ) :
    (drawSentenceCaption measure width caption t).length ≤ 2 ∧
    (∀ ws : List String, (∀ w ∈ ws, w ≠ "") →
      ∃ m, m ≤ ws.length ∧
        joinWords (wrapLinesGo measure (width * (85/100)) ws [] "") =
          joinWords (ws.take m)) ∧
    (drawMinimalCaption caption t).length ≤ 50 := by
  refine ⟨?_, ?_, ?_⟩
  · exact wrapLinesGo_length_le measure (width * (85/100)) _ [] "" (by simp)
  · exact fun ws hne => wrapLines_tail_drop measure (width * (85/100)) ws hne
  · simp only [drawMinimalCaption, jsStringTake, String.length]
    exact le_trans (Nat.le_of_eq (List.length_take _ _)) (min_le_left _ _)

/-- Witness for `sentence_two_lines_minimal_fifty`: the tail-drop conjunct
at the concrete word list `["hello", "world"]`. -/
theorem sentence_two_lines_minimal_fifty_witness :
    ∃ m, m ≤ (["hello", "world"] : List String).length ∧
      joinWords (wrapLinesGo (fun _ => (0:ℚ)) (1080 * (85/100)) ["hello", "world"] [] "") =
        joinWords (["hello", "world"].take m) :=
  (sentence_two_lines_minimal_fifty (fun _ => (0:ℚ)) 1080 ⟨"cap", 0, 1, "x", none⟩ 0).2.1
    ["hello", "world"] (by decide)

/-! ## Cover scaling (`drawImageCover`, lines 202-221) -/

/-- The rectangle passed to `ctx.drawImage`. -/
structure DrawRect where
  x : ℚ
  y : ℚ
  w : ℚ
  h : ℚ
deriving Repr, DecidableEq

/-- `drawImageCover`: compare the image aspect to the canvas aspect; on the
wider side height-fill and center horizontally, else width-fill and center
vertically. -/
def drawImageCover (imgW imgH width height : ℚ) : DrawRect :=
  let imgAspect := imgW / imgH
  let canvasAspect := width / height
  if imgAspect > canvasAspect then
    { x := (width - height * imgAspect) / 2, y := 0
      w := height * imgAspect, h := height }
  else
    { x := 0, y := (height - width / imgAspect) / 2
      w := width, h := width / imgAspect }

/-- C8: for positive image and output dimensions, cover scaling height-fills
and centers horizontally when the image is proportionally wider than the
output, otherwise width-fills and centers vertically; the drawn rectangle
always covers the whole output surface and preserves the image's aspect
ratio. -/
theorem drawImageCover_covers (imgW imgH width height : ℚ)
    (hiw : 0 < imgW) (hih : 0 < imgH) (hw : 0 < width) (hh : 0 < height) :
    (imgW / imgH > width / height →
      (drawImageCover imgW imgH width height).h = height ∧
      (drawImageCover imgW imgH width height).w = height * (imgW / imgH) ∧
      (drawImageCover imgW imgH width height).x =
        (width - (drawImageCover imgW imgH width height).w) / 2 ∧
      (drawImageCover imgW imgH width height).y = 0) ∧
    (¬ imgW / imgH > width / height →
      (drawImageCover imgW imgH width height).w = width ∧
      (drawImageCover imgW imgH width height).h = width / (imgW / imgH) ∧
      (drawImageCover imgW imgH width height).y =
        (height - (drawImageCover imgW imgH width height).h) / 2 ∧
      (drawImageCover imgW imgH width height).x = 0) ∧
    (drawImageCover imgW imgH width height).x ≤ 0 ∧
    (drawImageCover imgW imgH width height).y ≤ 0 ∧
    width ≤ (drawImageCover imgW imgH width height).x +
      (drawImageCover imgW imgH width height).w ∧
    height ≤ (drawImageCover imgW imgH width height).y +
      (drawImageCover imgW imgH width height).h ∧
    (drawImageCover imgW imgH width height).w /
      (drawImageCover imgW imgH width height).h = imgW / imgH := by
  have haspect : 0 < imgW / imgH := div_pos hiw hih
  have hane : imgW / imgH ≠ 0 := ne_of_gt haspect
  have hhne : height ≠ 0 := ne_of_gt hh
  have hwne : width ≠ 0 := ne_of_gt hw
  by_cases hcmp : imgW / imgH > width / height
  · have hwfill : width ≤ height * (imgW / imgH) := by
      have h1 : height * (width / height) ≤ height * (imgW / imgH) :=
        mul_le_mul_of_nonneg_left (le_of_lt hcmp) (le_of_lt hh)
      have h2 : height * (width / height) = width := by field_simp
      linarith
    have hr : drawImageCover imgW imgH width height =
        { x := (width - height * (imgW / imgH)) / 2, y := 0
          w := height * (imgW / imgH), h := height } := by
      simp only [drawImageCover, if_pos hcmp]
    rw [hr]
    dsimp only
    refine ⟨fun _ => ⟨rfl, rfl, rfl, rfl⟩, fun hc => absurd hcmp hc, ?_, le_refl 0, ?_, ?_, ?_⟩
    · linarith
    · linarith
    · linarith
    · rw [mul_comm, mul_div_assoc, div_self hhne, mul_one]
  · have hhfill : height ≤ width / (imgW / imgH) := by
      have h1 : imgW / imgH ≤ width / height := not_lt.mp hcmp
      have h2 : width / (width / height) ≤ width / (imgW / imgH) :=
        div_le_div_of_nonneg_left (le_of_lt hw) haspect h1
      have h3 : width / (width / height) = height := by
        rw [div_div_eq_mul_div, mul_comm, mul_div_assoc, div_self hwne, mul_one]
      linarith
    have hr : drawImageCover imgW imgH width height =
        { x := 0, y := (height - width / (imgW / imgH)) / 2
          w := width, h := width / (imgW / imgH) } := by
      simp only [drawImageCover, if_neg hcmp]
    rw [hr]
    dsimp only
    refine ⟨fun hc => absurd hc hcmp, fun _ => ⟨rfl, rfl, rfl, rfl⟩, le_refl 0, ?_, ?_, ?_, ?_⟩
    · linarith
    · linarith
    · linarith
    · rw [div_div_eq_mul_div, mul_comm, mul_div_assoc, div_self hwne, mul_one]

/-- Witness for `drawImageCover_covers` at a 100x50 image on a 1080x1920
canvas. -/
theorem drawImageCover_covers_witness :
    (drawImageCover 100 50 1080 1920).x ≤ 0 ∧
    1080 ≤ (drawImageCover 100 50 1080 1920).x + (drawImageCover 100 50 1080 1920).w := by
  have h := drawImageCover_covers 100 50 1080 1920 (by norm_num) (by norm_num)
    (by norm_num) (by norm_num)
  exact ⟨h.2.2.1, h.2.2.2.2.1⟩

/-! ## Capture loop (`animate`, lines 119-141) -/

/-- Active-scene lookup of the capture loop (lines 129-131):
`sceneTimings.find(s => elapsed >= s.start && elapsed < s.end)
 || sceneTimings[sceneTimings.length - 1]`.  The JavaScript expression is
`undefined` only when both the search fails and the array is empty, hence
the `Option` result. -/
def currentSceneAt (ts : List SceneTiming) (elapsed : ℚ) : Option SceneTiming :=
  match ts.find? (fun s => decide (s.start ≤ elapsed) && decide (elapsed < s.«end»)) with
  | some s => some s
  | none => ts.getLast?

/-- The integer completion percentage of a tick (lines 120-123):
`progress = Math.min(elapsed / totalDuration, 1)`;
`progressPercent = Math.floor(progress * 100)`. -/
def progressPercent (total elapsed : ℚ) : ℤ :=
  ⌊min (elapsed / total) 1 * 100⌋

/-- The observable outcome of one `animate` tick. -/
structure TickOutput where
  emitted : Option ℤ
  lastProgress : ℤ
  scene : Option SceneTiming
  continues : Bool
deriving Repr, DecidableEq

/-- One tick of `animate` (lines 119-141): compute the percentage, emit a
`Recording: p%` update and record it in `lastProgress` only when
`progressPercent > lastProgress + 4`, look up the active scene, and schedule
the next frame while `elapsed < totalDuration`. -/
def animateTick (ts : List SceneTiming) (total elapsed : ℚ) (lastProgress : ℤ) :
    TickOutput :=
  let pp := progressPercent total elapsed
  if pp > lastProgress + 4 then
    { emitted := some pp, lastProgress := pp, scene := currentSceneAt ts elapsed
      continues := decide (elapsed < total) }
  else
    { emitted := none, lastProgress := lastProgress, scene := currentSceneAt ts elapsed
      continues := decide (elapsed < total) }

/-- C9 counterexample: at a tick whose percentage is 4 with no update emitted
yet (`lastProgress = 0`), the percentage has advanced by exactly 4, yet the
code emits nothing — the loop requires an advance strictly greater than 4. -/
theorem progress_advance_four_not_emitted :
    progressPercent 1 (1/25) - 0 ≥ 4 ∧
    (animateTick [] 1 (1/25) 0).emitted = none := by
  have hpp : progressPercent 1 (1/25) = 4 := by
    have h1 : min ((1/25 : ℚ) / 1) 1 * 100 = 4 := by norm_num
    simp only [progressPercent, h1]
    norm_num
  constructor
  · rw [hpp]; norm_num
  · simp only [animateTick, hpp]
    norm_num

/-- C9 as amended: a progress update is emitted at a tick if and only if the
integer completion percentage `floor(100 * min(elapsed/totalDuration, 1))`
has advanced by at least 5 (strictly more than 4) over `lastProgress` (the
last emitted percentage, initially 0); when emitted, `lastProgress` becomes
the new percentage, otherwise it is unchanged. -/
theorem progress_emitted_iff_advance_five (ts : List SceneTiming)
    (total elapsed : ℚ) (last : ℤ) :
    progressPercent total elapsed = ⌊100 * min (elapsed / total) 1⌋ ∧
    ((animateTick ts total elapsed last).emitted =
        some (progressPercent total elapsed) ↔
      last + 5 ≤ progressPercent total elapsed) ∧
    ((animateTick ts total elapsed last).emitted = none ↔
      progressPercent total elapsed < last + 5) ∧
    (animateTick ts total elapsed last).lastProgress =
      (if last + 5 ≤ progressPercent total elapsed then
        progressPercent total elapsed
      else last) := by
  refine ⟨by rw [progressPercent, mul_comm], ?_, ?_, ?_⟩ <;>
    · simp only [animateTick]
      split <;> rename_i h <;> simp <;> omega

/-! ## Karaoke current-word selection (`drawKaraokeCaption`, lines 249-264,
and per-word styling, `drawWordLine`, lines 319-343) -/

/-- The first loop of lines 250-256: scan forward from index `n` for the
first word with `currentTime >= start && currentTime < end`. -/
def findCurrentWordFwd (t : ℚ) : List WordTiming → ℕ → Option ℕ
  | [], _ => none
  | w :: ws, n => if w.start ≤ t ∧ t < w.«end» then some n else findCurrentWordFwd t ws (n + 1)

/-- The second loop of lines 257-264: scan from index `n - 1` downward for
the first (hence greatest) word with `currentTime >= end`; `-1` when the
loop exhausts. -/
def findLastEndedDown (words : List WordTiming) (t : ℚ) : ℕ → ℤ
  | 0 => -1
  | n + 1 =>
    match words.get? n with
    | some w => if w.«end» ≤ t then (n : ℤ) else findLastEndedDown words t n
    | none => findLastEndedDown words t n

/-- `currentWordIdx` of `drawKaraokeCaption`: the forward scan, falling back
to the downward scan (`-1` when both fail). -/
def currentWordIdx (words : List WordTiming) (t : ℚ) : ℤ :=
  match findCurrentWordFwd t words 0 with
  | some n => (n : ℤ)
  | none => findLastEndedDown words t words.length

/-- The drawing attributes `drawWordLine` sets per word (fill style, glow
blur, font size factor). -/
structure WordDrawStyle where
  fillStyle : String
  shadowBlur : ℚ
  fontScale : ℚ
deriving Repr, DecidableEq

/-- Per-word styling of `drawWordLine` (lines 319-339): the current word is
enlarged (`fontSize * 1.1`) in gold `#FFD700` with a glow; past words use
the configured text color; upcoming words are dimmed translucent white. -/
def wordLineStyle (settings : CaptionSettings) (globalIdx cur : ℤ) : WordDrawStyle :=
  if globalIdx = cur then ⟨"#FFD700", 15, 11/10⟩
  else if globalIdx < cur then ⟨settings.textColor, 0, 1⟩
  else ⟨"rgba(255, 255, 255, 0.5)", 0, 1⟩

/-- The concrete caption words of the end-to-end scenario of C5. -/
def helloWorldWords : List WordTiming :=
  [⟨"Hello", 0, 1/2⟩, ⟨"world", 1/2, 6/5⟩]

theorem findCurrentWordFwd_eq_some (t : ℚ) :
    ∀ (ws : List WordTiming) (n k : ℕ), findCurrentWordFwd t ws n = some k →
      ∃ j w, k = n + j ∧ ws.get? j = some w ∧ w.start ≤ t ∧ t < w.«end» := by
  intro ws
  induction ws with
  | nil => intro n k h; simp [findCurrentWordFwd] at h
  | cons w ws ih =>
    intro n k h
    simp only [findCurrentWordFwd] at h
    split at h
    · next hp =>
      obtain rfl : n = k := Option.some.inj h
      exact ⟨0, w, by omega, rfl, hp.1, hp.2⟩
    · next hp =>
      obtain ⟨j, w', hk, hget, h1, h2⟩ := ih (n + 1) k h
      exact ⟨j + 1, w', by omega, by simpa using hget, h1, h2⟩

theorem findCurrentWordFwd_finds (t : ℚ) :
    ∀ (ws : List WordTiming) (n j : ℕ) (w : WordTiming), ws.get? j = some w →
      w.start ≤ t → t < w.«end» → ∃ k, findCurrentWordFwd t ws n = some k := by
  intro ws
  induction ws with
  | nil => intro n j w h; simp at h
  | cons w0 ws ih =>
    intro n j w hget h1 h2
    simp only [findCurrentWordFwd]
    split
    · exact ⟨n, rfl⟩
    · next hp =>
      match j, hget with
      | 0, hget =>
        exfalso
        have hw : w0 = w := by simpa using hget
        exact hp ⟨by rw [hw]; exact h1, by rw [hw]; exact h2⟩
      | j + 1, hget => exact ih (n + 1) j w (by simpa using hget) h1 h2

theorem findLastEndedDown_spec (words : List WordTiming) (t : ℚ) (k : ℕ)
    (w : WordTiming) (hget : words.get? k = some w) (hend : w.«end» ≤ t) :
    ∀ (n : ℕ), k < n → n ≤ words.length →
      (∀ j w', k < j → j < n → words.get? j = some w' → ¬ w'.«end» ≤ t) →
      findLastEndedDown words t n = (k : ℤ) := by
  intro n
  induction n with
  | zero => omega
  | succ m ih =>
    intro hkm hlen habove
    simp only [findLastEndedDown]
    have hm : m < words.length := by omega
    rcases Nat.lt_or_ge k m with hkm' | hkm'
    · have hw' : words.get? m = some (words.get ⟨m, hm⟩) := List.get?_eq_get hm
      rw [hw']
      dsimp only
      rw [if_neg (habove m _ hkm' (Nat.lt_succ_self m) hw')]
      exact ih hkm' (by omega) (fun j w'' hj1 hj2 hg => habove j w'' hj1 (by omega) hg)
    · have hkeq : k = m := by omega
      subst hkeq
      rw [hget]
      dsimp only
      rw [if_pos hend]

theorem findCurrentWordFwd_eq_none (t : ℚ) :
    ∀ (ws : List WordTiming) (n : ℕ),
      (∀ j w, ws.get? j = some w → ¬(w.start ≤ t ∧ t < w.«end»)) →
      findCurrentWordFwd t ws n = none := by
  intro ws
  induction ws with
  | nil => intro n _; rfl
  | cons w ws ih =>
    intro n hall
    simp only [findCurrentWordFwd]
    rw [if_neg (hall 0 w rfl)]
    exact ih (n + 1) (fun j w' hg => hall (j + 1) w' (by simpa using hg))

/-- C5: at timestamp `t` the karaoke current word index is the unique `i`
with `t` in `[words[i].start, words[i].end)` when such a word exists, and
otherwise the greatest `i` with `words[i].end <= t`; the word at that index
is drawn enlarged in the gold highlight color, earlier words in the full
configured foreground color, later words dimmed.  In particular for words
`[("Hello",0,0.5), ("world",0.5,1.2)]` at `t = 0.3` the current index is 0
("Hello" highlighted) and "world" at index 1 is dimmed. -/
theorem karaoke_current_word_spec (settings : CaptionSettings)
    (words : List WordTiming) (t : ℚ) (k : ℕ) (w : WordTiming) :
    (words.get? k = some w → w.start ≤ t → t < w.«end» →
      (∀ j w', words.get? j = some w' → w'.start ≤ t → t < w'.«end» → j = k) →
      currentWordIdx words t = (k : ℤ)) ∧
    ((∀ j w', words.get? j = some w' → ¬(w'.start ≤ t ∧ t < w'.«end»)) →
      words.get? k = some w → w.«end» ≤ t →
      (∀ j w', k < j → words.get? j = some w' → t < w'.«end») →
      currentWordIdx words t = (k : ℤ)) ∧
    (∀ g c : ℤ,
      (g = c → wordLineStyle settings g c = ⟨"#FFD700", 15, 11/10⟩) ∧
      (g < c → wordLineStyle settings g c = ⟨settings.textColor, 0, 1⟩) ∧
      (c < g → wordLineStyle settings g c = ⟨"rgba(255, 255, 255, 0.5)", 0, 1⟩)) ∧
    (currentWordIdx helloWorldWords (3/10) = 0 ∧
      wordLineStyle settings 0 (currentWordIdx helloWorldWords (3/10)) =
        ⟨"#FFD700", 15, 11/10⟩ ∧
      wordLineStyle settings 1 (currentWordIdx helloWorldWords (3/10)) =
        ⟨"rgba(255, 255, 255, 0.5)", 0, 1⟩) := by
  have hidx : currentWordIdx helloWorldWords (3/10) = 0 := by
    have h0 : findCurrentWordFwd (3/10) helloWorldWords 0 = some 0 := by
      simp only [helloWorldWords, findCurrentWordFwd]
      rw [if_pos (by constructor <;> norm_num)]
    simp only [currentWordIdx, h0, Nat.cast_zero]
  refine ⟨?_, ?_, ?_, hidx, ?_, ?_⟩
  · intro hget h1 h2 huniq
    obtain ⟨m, hm⟩ := findCurrentWordFwd_finds t words 0 k w hget h1 h2
    obtain ⟨j, w', hk, hget', h1', h2'⟩ := findCurrentWordFwd_eq_some t words 0 m hm
    have hjk := huniq j w' hget' h1' h2'
    simp only [currentWordIdx, hm]
    omega
  · intro hnone hget hend habove
    simp only [currentWordIdx, findCurrentWordFwd_eq_none t words 0 hnone]
    obtain ⟨hklt, -⟩ := List.get?_eq_some.mp hget
    exact findLastEndedDown_spec words t k w hget hend words.length hklt (le_refl _)
      (fun j w' hj1 _ hg => not_le.mpr (habove j w' hj1 hg))
  · intro g c
    refine ⟨fun h => ?_, fun h => ?_, fun h => ?_⟩
    · rw [wordLineStyle, if_pos h]
    · rw [wordLineStyle, if_neg (by omega), if_pos h]
    · rw [wordLineStyle, if_neg (by omega)]
      rw [if_neg (by omega)]
  · rw [hidx]
    rw [wordLineStyle, if_pos rfl]
  · rw [hidx]
    rw [wordLineStyle, if_neg (by omega), if_neg (by omega)]

/-- Witness for `karaoke_current_word_spec`: the unique-containment case at
the "Hello world" caption, `t = 0.3`, current word 0. -/
theorem karaoke_current_word_spec_witness :
    currentWordIdx helloWorldWords (3/10) = 0 := by
  refine (karaoke_current_word_spec DEFAULT_CAPTION_SETTINGS helloWorldWords (3/10) 0
    ⟨"Hello", 0, 1/2⟩).1 rfl (by show (0:ℚ) ≤ 3/10; norm_num)
    (by show (3/10:ℚ) < 1/2; norm_num) ?_
  intro j w' hget h1 h2
  match j, hget with
  | 0, _ => rfl
  | 1, hget =>
    exfalso
    have hw : w' = ⟨"world", 1/2, 6/5⟩ := by
      have := hget
      simp only [helloWorldWords] at this
      exact (Option.some.inj this).symm
    rw [hw] at h1
    revert h1
    show ¬((1:ℚ)/2 ≤ 3/10)
    norm_num
  | j + 2, hget => simp [helloWorldWords] at hget

/-! ## Word-by-word template (`drawWordByWordCaption`, lines 352-388) -/

/-- Indexing a JavaScript array (`undefined` outside the bounds). -/
def jsGet {α : Type} (l : List α) (i : ℤ) : Option α :=
  if 0 ≤ i then l.get? i.toNat else none

/-- The observable result of `drawWordByWordCaption`: nothing when the
selected word is empty (the function returns before drawing), else exactly
one word with its font size and fill style. -/
inductive WordByWordDraw
  | nothing
  | drawn (word : String) (fontSize : ℚ) (fillStyle : String)
deriving Repr, DecidableEq

/-- JavaScript `String.prototype.toUpperCase()`, modelled as a per-character
uppercase map. -/
def jsToUpper (s : String) : String :=
  String.mk (s.data.map Char.toUpper)

/-- `drawWordByWordCaption`: font size is doubled; with non-empty word
timings the first word whose `[start, end)` contains `t` is selected (empty
string when none matches); otherwise the caption text is split on
whitespace and the word at `min(floor(progress * wordCount), wordCount-1)`
is selected (`''` when out of bounds); the selection is uppercased and
drawn only when non-empty. -/
def drawWordByWordCaption (width height : ℚ) (caption : Caption)
    (settings : CaptionSettings) (t : ℚ) : WordByWordDraw :=
  let fontSize := getFontSize width height settings.fontSize * 2
  let fallbackWord :=
    let words := jsSplitWs caption.text
    let wordIdx := ⌊captionProgress caption t * words.length⌋
    jsToUpper ((jsGet words (min wordIdx ((words.length : ℤ) - 1))).getD "")
  let currentWord :=
    match caption.words with
    | some ws =>
      if 0 < ws.length then
        match ws.find? (fun w => decide (w.start ≤ t) && decide (t < w.«end»)) with
        | some w => jsToUpper w.word
        | none => ""
      else fallbackWord
    | none => fallbackWord
  if currentWord = "" then .nothing else .drawn currentWord fontSize settings.textColor

/-- With word timings present and a unique containing word of non-empty
text, the word-by-word template draws that word uppercased at double
size. -/
theorem drawWordByWord_timed_found (width height : ℚ) (caption : Caption)
    (settings : CaptionSettings) (t : ℚ) (ws : List WordTiming) (w : WordTiming)
    (hcw : caption.words = some ws) (hmem : w ∈ ws)
    (h1 : w.start ≤ t) (h2 : t < w.«end»)
    (huniq : ∀ x ∈ ws, x.start ≤ t → t < x.«end» → x = w)
    (hne : jsToUpper w.word ≠ "") :
    drawWordByWordCaption width height caption settings t =
      .drawn (jsToUpper w.word) (getFontSize width height settings.fontSize * 2)
        settings.textColor := by
  have hlen : 0 < ws.length := List.length_pos.mpr (List.ne_nil_of_mem hmem)
  cases hf : ws.find? (fun x => decide (x.start ≤ t) && decide (t < x.«end»)) with
  | none =>
    exfalso
    rw [List.find?_eq_none] at hf
    exact hf w hmem (by simp [h1, h2])
  | some x =>
    have hx1 := List.find?_some hf
    have hx2 := List.mem_of_find?_eq_some hf
    simp only [Bool.and_eq_true, decide_eq_true_eq] at hx1
    have hxw : x = w := huniq x hx2 hx1.1 hx1.2
    subst hxw
    simp only [drawWordByWordCaption, hcw, hf]
    rw [if_pos hlen, if_neg hne]

/-- With word timings present but none containing `t` (a gap), the
word-by-word template draws nothing. -/
theorem drawWordByWord_timed_gap (width height : ℚ) (caption : Caption)
    (settings : CaptionSettings) (t : ℚ) (ws : List WordTiming)
    (hcw : caption.words = some ws) (hnil : ws ≠ [])
    (hall : ∀ x ∈ ws, ¬(x.start ≤ t ∧ t < x.«end»)) :
    drawWordByWordCaption width height caption settings t = .nothing := by
  have hlen : 0 < ws.length := List.length_pos.mpr hnil
  have hf : ws.find? (fun x => decide (x.start ≤ t) && decide (t < x.«end»)) = none := by
    rw [List.find?_eq_none]
    intro x hx
    simp only [Bool.and_eq_true, decide_eq_true_eq]
    exact fun hc => hall x hx ⟨hc.1, hc.2⟩
  simp only [drawWordByWordCaption, hcw, hf]
  rw [if_pos hlen, if_pos rfl]

/-- With word timings absent or empty, the word-by-word template draws the
clamped proportional-reveal word whenever it is non-empty. -/
theorem drawWordByWord_fallback (width height : ℚ) (caption : Caption)
    (settings : CaptionSettings) (t : ℚ)
    (hor : caption.words = none ∨ caption.words = some []) (sel : String)
    (hsel : sel = jsToUpper ((jsGet (jsSplitWs caption.text)
      (min ⌊captionProgress caption t * ((jsSplitWs caption.text).length : ℚ)⌋
        (((jsSplitWs caption.text).length : ℤ) - 1))).getD ""))
    (hne : sel ≠ "") :
    drawWordByWordCaption width height caption settings t =
      .drawn sel (getFontSize width height settings.fontSize * 2)
        settings.textColor := by
  rcases hor with hno | hemp
  · simp only [drawWordByWordCaption, hno]
    rw [← hsel, if_neg hne]
  · simp only [drawWordByWordCaption, hemp, List.length_nil, lt_irrefl, if_false]
    rw [← hsel, if_neg hne]

/-- The caption of the C6 counterexample: word timings are present but leave
a gap `[0.5, 1)` inside the caption's span `[0, 1)`. -/
def gapCaption : Caption :=
  ⟨"c1", 0, 1, "Hi there", some [⟨"Hi", 0, 1/2⟩]⟩

/-- C6 counterexample: `t = 0.7` lies inside `gapCaption`'s span and word
timings are present, yet the word-by-word template draws nothing — not
"exactly one word" as claimed — because no word's `[start, end)` contains
`t`. -/
theorem wordByWord_gap_draws_nothing :
    gapCaption.startTime ≤ 7/10 ∧ (7/10 : ℚ) < gapCaption.endTime ∧
    gapCaption.words = some [⟨"Hi", 0, 1/2⟩] ∧
    drawWordByWordCaption 1080 1920 gapCaption DEFAULT_CAPTION_SETTINGS (7/10) =
      .nothing := by
  refine ⟨by show (0:ℚ) ≤ 7/10; norm_num, by show (7/10:ℚ) < 1; norm_num, rfl, ?_⟩
  refine drawWordByWord_timed_gap 1080 1920 gapCaption DEFAULT_CAPTION_SETTINGS (7/10)
    [⟨"Hi", 0, 1/2⟩] rfl (by simp) ?_
  intro x hx
  rw [List.mem_singleton.mp hx]
  show ¬((0:ℚ) ≤ 7/10 ∧ (7/10:ℚ) < 1/2)
  norm_num

/-- C6 as amended: within the caption's span the word-by-word template draws
at most one word, uppercased, at double the configured font size.  With
word timings present, the word whose `[start, end)` contains `t` is drawn
when one exists (and is unique) and its text is non-empty; in a gap where
no word timing contains `t`, nothing is drawn.  With word timings absent or
empty, the word at index `floor(progress * wordCount)` of the
whitespace-split caption text, clamped to the last index, is drawn when
non-empty. -/
theorem wordByWord_draw_spec (width height : ℚ) (caption : Caption)
    (settings : CaptionSettings) (t : ℚ) (ws : List WordTiming) (w : WordTiming) :
    (caption.words = some ws → w ∈ ws → w.start ≤ t → t < w.«end» →
      (∀ x ∈ ws, x.start ≤ t → t < x.«end» → x = w) → jsToUpper w.word ≠ "" →
      drawWordByWordCaption width height caption settings t =
        .drawn (jsToUpper w.word) (getFontSize width height settings.fontSize * 2)
          settings.textColor) ∧
    (caption.words = some ws → ws ≠ [] → (∀ x ∈ ws, ¬(x.start ≤ t ∧ t < x.«end»)) →
      drawWordByWordCaption width height caption settings t = .nothing) ∧
    ((caption.words = none ∨ caption.words = some []) →
      ∀ sel, sel = jsToUpper ((jsGet (jsSplitWs caption.text)
          (min ⌊captionProgress caption t * ((jsSplitWs caption.text).length : ℚ)⌋
            (((jsSplitWs caption.text).length : ℤ) - 1))).getD "") →
        sel ≠ "" →
        drawWordByWordCaption width height caption settings t =
          .drawn sel (getFontSize width height settings.fontSize * 2)
            settings.textColor) :=
  ⟨fun hcw hmem h1 h2 huniq hne =>
    drawWordByWord_timed_found width height caption settings t ws w hcw hmem h1 h2 huniq hne,
   fun hcw hnil hall =>
    drawWordByWord_timed_gap width height caption settings t ws hcw hnil hall,
   fun hor sel hsel hne =>
    drawWordByWord_fallback width height caption settings t hor sel hsel hne⟩

/-- Witness for `wordByWord_draw_spec`: a one-word caption fully covering
its span draws the uppercased word at `t = 0.5`. -/
theorem wordByWord_draw_spec_witness :
    drawWordByWordCaption 1080 1920 ⟨"c2", 0, 1, "Hi", some [⟨"Hi", 0, 1⟩]⟩
      DEFAULT_CAPTION_SETTINGS (1/2) =
      .drawn (jsToUpper "Hi")
        (getFontSize 1080 1920 DEFAULT_CAPTION_SETTINGS.fontSize * 2)
        DEFAULT_CAPTION_SETTINGS.textColor :=
  (wordByWord_draw_spec 1080 1920 ⟨"c2", 0, 1, "Hi", some [⟨"Hi", 0, 1⟩]⟩
    DEFAULT_CAPTION_SETTINGS (1/2) [⟨"Hi", 0, 1⟩] ⟨"Hi", 0, 1⟩).1 rfl
    (List.mem_singleton.mpr rfl)
    (by show (0:ℚ) ≤ 1/2; norm_num) (by show (1/2:ℚ) < 1; norm_num)
    (fun x hx _ _ => List.mem_singleton.mp hx) (by decide)

/-! ## Caption selection (`drawFrame`, lines 182-183) -/

/-- `captions.find(c => currentTime >= c.startTime && currentTime < c.endTime)`
of `drawFrame`; `undefined` (here `none`) renders no caption. -/
def findCaption (captions : List Caption) (t : ℚ) : Option Caption :=
  captions.find? (fun c => decide (c.startTime ≤ t) && decide (t < c.endTime))

/-- C10: every caption selected by `drawFrame` at time `t` satisfies
`startTime ≤ t < endTime`, hence its span is strictly positive, the
proportional-reveal progress lies in `[0, 1)`, and the derived word indices
of the sentence window, the minimal window, and the word-by-word fallback
always lie within the bounds of the respective word arrays. -/
theorem drawFrame_caption_progress_safety (captions : List Caption) (t : ℚ)
    (c : Caption) (hfind : findCaption captions t = some c) :
    c.startTime ≤ t ∧ t < c.endTime ∧ 0 < c.endTime - c.startTime ∧
    0 ≤ captionProgress c t ∧ captionProgress c t < 1 ∧
    (∀ len : ℕ,
      0 ≤ (sentenceWindow len (captionProgress c t)).1 ∧
      (sentenceWindow len (captionProgress c t)).1 ≤
        (sentenceWindow len (captionProgress c t)).2 ∧
      (sentenceWindow len (captionProgress c t)).2 ≤ (len : ℤ)) ∧
    (∀ len : ℕ,
      0 ≤ (minimalWindow len (captionProgress c t)).1 ∧
      (minimalWindow len (captionProgress c t)).1 ≤
        (minimalWindow len (captionProgress c t)).2 ∧
      (minimalWindow len (captionProgress c t)).2 ≤ (len : ℤ)) ∧
    (∀ len : ℕ, 0 < len →
      0 ≤ min ⌊captionProgress c t * (len : ℚ)⌋ ((len : ℤ) - 1) ∧
      min ⌊captionProgress c t * (len : ℚ)⌋ ((len : ℤ) - 1) < (len : ℤ)) := by
  have hp := List.find?_some hfind
  simp only [Bool.and_eq_true, decide_eq_true_eq] at hp
  obtain ⟨h1, h2⟩ := hp
  have hspan : 0 < c.endTime - c.startTime := by linarith
  have hp0 : 0 ≤ captionProgress c t :=
    div_nonneg (by linarith) (le_of_lt hspan)
  have hp1 : captionProgress c t < 1 :=
    (div_lt_one hspan).mpr (by linarith)
  refine ⟨h1, h2, hspan, hp0, hp1, ?_, ?_, ?_⟩
  · intro len
    have hceil : 0 ≤ ⌈captionProgress c t * (len : ℚ)⌉ :=
      Int.ceil_nonneg (mul_nonneg hp0 (by positivity))
    simp only [sentenceWindow]
    omega
  · intro len
    have hceil : 0 ≤ ⌈captionProgress c t * (len : ℚ)⌉ :=
      Int.ceil_nonneg (mul_nonneg hp0 (by positivity))
    simp only [minimalWindow]
    omega
  · intro len hlen
    have hfl : 0 ≤ ⌊captionProgress c t * (len : ℚ)⌋ :=
      Int.floor_nonneg.mpr (mul_nonneg hp0 (by positivity))
    have hlt : captionProgress c t * (len : ℚ) < ((len : ℤ) : ℚ) := by
      push_cast
      calc captionProgress c t * (len : ℚ) < 1 * (len : ℚ) :=
        mul_lt_mul_of_pos_right hp1 (by exact_mod_cast hlen)
      _ = (len : ℚ) := one_mul _
    have hfu : ⌊captionProgress c t * (len : ℚ)⌋ < (len : ℤ) :=
      Int.floor_lt.mpr hlt
    omega

/-- Witness for `drawFrame_caption_progress_safety` at a single caption
spanning `[0, 1)` and `t = 0.5`. -/
theorem drawFrame_caption_progress_safety_witness :
    0 ≤ captionProgress ⟨"cap", 0, 1, "x", none⟩ (1/2) ∧
    captionProgress ⟨"cap", 0, 1, "x", none⟩ (1/2) < 1 := by
  have hf : findCaption [⟨"cap", 0, 1, "x", none⟩] (1/2) =
      some ⟨"cap", 0, 1, "x", none⟩ := by
    rw [findCaption]
    apply List.find?_cons_of_pos
    simp only [Bool.and_eq_true, decide_eq_true_eq]
    exact ⟨by show (0:ℚ) ≤ 1/2; norm_num, by show (1/2:ℚ) < 1; norm_num⟩
  have h := drawFrame_caption_progress_safety [⟨"cap", 0, 1, "x", none⟩] (1/2) _ hf
  exact ⟨h.2.2.2.1, h.2.2.2.2.1⟩

/-! ## Timeline properties (C1) -/

theorem foldl_add_duration : ∀ (l : List Scene) (c : ℚ),
    l.foldl (fun acc s => acc + s.duration) c = c + durSum l := by
  intro l
  induction l with
  | nil => intro c; simp [durSum]
  | cons s rest ih =>
    intro c
    simp only [List.foldl_cons, ih, durSum, List.map_cons, List.sum_cons]
    ring

theorem totalDuration_eq_durSum (l : List Scene) : totalDuration l = durSum l := by
  rw [totalDuration, foldl_add_duration]
  ring

theorem buildTimings_length : ∀ (l : List Scene) (t : ℚ) (i : ℕ),
    (buildTimings l t i).length = l.length := by
  intro l
  induction l with
  | nil => intro t i; rfl
  | cons s rest ih => intro t i; simp [buildTimings, ih]

theorem buildTimings_get? :
    ∀ (l : List Scene) (t : ℚ) (i k : ℕ), k < l.length →
      (buildTimings l t i).get? k =
        some ⟨t + durSum (l.take k), t + durSum (l.take (k+1)), i + k⟩ := by
  intro l
  induction l with
  | nil => intro t i k hk; simp at hk
  | cons s rest ih =>
    intro t i k hk
    cases k with
    | zero => simp [buildTimings, durSum]
    | succ k =>
      rw [show buildTimings (s :: rest) t i =
        ⟨t, t + s.duration, i⟩ :: buildTimings rest (t + s.duration) (i + 1) from rfl]
      rw [List.get?_cons_succ]
      rw [ih (t + s.duration) (i + 1) k (by simpa using hk)]
      simp only [List.take_succ_cons, durSum, List.map_cons, List.sum_cons,
        Option.some.injEq, SceneTiming.mk.injEq]
      refine ⟨by ring, by ring, by omega⟩

theorem sceneTimings_get? (scenes : List Scene) (k : ℕ) (hk : k < scenes.length) :
    (sceneTimings scenes).get? k =
      some ⟨durSum (scenes.take k), durSum (scenes.take (k+1)), k⟩ := by
  rw [sceneTimings, buildTimings_get? scenes 0 0 k hk]
  simp

theorem sceneTimings_length (scenes : List Scene) :
    (sceneTimings scenes).length = scenes.length := by
  rw [sceneTimings, buildTimings_length]

theorem durSum_take_mono (l : List Scene) (hnn : ∀ s ∈ l, 0 ≤ s.duration)
    (j k : ℕ) (hjk : j ≤ k) : durSum (l.take j) ≤ durSum (l.take k) := by
  have hsplit : l.take k = l.take j ++ (l.drop j).take (k - j) := by
    rw [← List.take_add]
    congr 1
    omega
  have h0 : 0 ≤ durSum ((l.drop j).take (k - j)) := by
    apply List.sum_nonneg
    intro x hx
    simp only [List.mem_map] at hx
    obtain ⟨s, hs, rfl⟩ := hx
    exact hnn s (List.drop_subset j l (List.take_subset _ _ hs))
  calc durSum (l.take j)
      ≤ durSum (l.take j) + durSum ((l.drop j).take (k - j)) :=
        le_add_of_nonneg_right h0
    _ = durSum (l.take k) := by
        rw [hsplit]
        simp [durSum, List.map_append, List.sum_append]

theorem buildTimings_map_sum : ∀ (l : List Scene) (t : ℚ) (i : ℕ),
    ((buildTimings l t i).map (fun st => st.«end» - st.start)).sum = durSum l := by
  intro l
  induction l with
  | nil => intro t i; simp [buildTimings, durSum]
  | cons s rest ih =>
    intro t i
    simp only [buildTimings, List.map_cons, List.sum_cons, ih, durSum]
    ring

/-- C1: the timeline built by `composeVideo` is contiguous (the first
interval starts at 0 and each interval's start equals the previous
interval's end), non-overlapping for positive scene durations (each
interval ends no later than any later interval starts), and the interval
lengths sum to the sum of the scene durations, the last interval ending at
`totalDuration`. -/
theorem composeVideo_timeline_spec (scenes : List Scene) :
    ((sceneTimings scenes).map (fun st => st.«end» - st.start)).sum =
      totalDuration scenes ∧
    (∀ st, (sceneTimings scenes).get? 0 = some st → st.start = 0) ∧
    (∀ k st st', (sceneTimings scenes).get? k = some st →
      (sceneTimings scenes).get? (k+1) = some st' → st'.start = st.«end») ∧
    (∀ st, (sceneTimings scenes).getLast? = some st →
      st.«end» = totalDuration scenes) ∧
    ((∀ s ∈ scenes, 0 < s.duration) → ∀ j k stj stk, j < k →
      (sceneTimings scenes).get? j = some stj →
      (sceneTimings scenes).get? k = some stk →
      stj.«end» ≤ stk.start) := by
  refine ⟨?_, ?_, ?_, ?_, ?_⟩
  · rw [sceneTimings, buildTimings_map_sum, totalDuration_eq_durSum]
  · intro st h
    cases scenes with
    | nil => simp [sceneTimings, buildTimings] at h
    | cons s rest =>
      rw [sceneTimings_get? (s :: rest) 0 (by simp)] at h
      rw [← Option.some.inj h]
      simp [durSum]
  · intro k st st' h h'
    have hl' := (List.get?_eq_some.mp h').1
    rw [sceneTimings_length] at hl'
    have hk : k < scenes.length := by omega
    rw [sceneTimings_get? scenes k hk] at h
    rw [sceneTimings_get? scenes (k+1) hl'] at h'
    rw [← Option.some.inj h, ← Option.some.inj h']
  · intro st h
    rw [List.getLast?_eq_getElem?, ← List.get?_eq_getElem?, sceneTimings_length] at h
    have hlt := (List.get?_eq_some.mp h).1
    rw [sceneTimings_length] at hlt
    have hpos : 0 < scenes.length := by omega
    rw [sceneTimings_get? scenes (scenes.length - 1) (by omega)] at h
    rw [← Option.some.inj h]
    show durSum (scenes.take (scenes.length - 1 + 1)) = totalDuration scenes
    rw [show scenes.length - 1 + 1 = scenes.length by omega, List.take_length,
      totalDuration_eq_durSum]
  · intro hpos j k stj stk hjk hj hk
    have hlj := (List.get?_eq_some.mp hj).1
    have hlk := (List.get?_eq_some.mp hk).1
    rw [sceneTimings_length] at hlj hlk
    rw [sceneTimings_get? scenes j hlj] at hj
    rw [sceneTimings_get? scenes k hlk] at hk
    rw [← Option.some.inj hj, ← Option.some.inj hk]
    exact durSum_take_mono scenes (fun s hs => le_of_lt (hpos s hs)) (j+1) k (by omega)

/-- Witness for `composeVideo_timeline_spec` on two scenes of durations 2
and 3: the second interval starts where the first ends, and the intervals
of distinct indices do not overlap. -/
theorem composeVideo_timeline_spec_witness :
    (sceneTimings [⟨"s1", 0, "a", "p", 2, none⟩, ⟨"s2", 1, "b", "q", 3, none⟩]).get? 1 =
      some ⟨2, 5, 1⟩ ∧
    (⟨0, 2, 0⟩ : SceneTiming).«end» ≤ (⟨2, 5, 1⟩ : SceneTiming).start := by
  have hget0 : (sceneTimings [⟨"s1", 0, "a", "p", 2, none⟩,
      ⟨"s2", 1, "b", "q", 3, none⟩]).get? 0 = some ⟨0, 2, 0⟩ := by
    rw [sceneTimings_get? _ 0 (by simp)]
    simp [durSum]
  have hget1 : (sceneTimings [⟨"s1", 0, "a", "p", 2, none⟩,
      ⟨"s2", 1, "b", "q", 3, none⟩]).get? 1 = some ⟨2, 5, 1⟩ := by
    rw [sceneTimings_get? _ 1 (by simp)]
    simp [durSum]
    norm_num
  refine ⟨hget1, ?_⟩
  exact (composeVideo_timeline_spec [⟨"s1", 0, "a", "p", 2, none⟩,
    ⟨"s2", 1, "b", "q", 3, none⟩]).2.2.2.2
    (by
      intro s hs
      simp only [List.mem_cons, List.not_mem_nil, or_false] at hs
      rcases hs with h | h
      · subst h; show (0:ℚ) < 2; norm_num
      · subst h; show (0:ℚ) < 3; norm_num)
    0 1 ⟨0, 2, 0⟩ ⟨2, 5, 1⟩ (by omega) hget0 hget1

/-! ## Active-scene lookup properties (C2) -/

theorem buildTimings_find?_none : ∀ (l : List Scene) (t0 : ℚ) (i : ℕ) (e : ℚ),
    (∀ s ∈ l, 0 ≤ s.duration) → t0 + durSum l ≤ e →
    (buildTimings l t0 i).find?
      (fun s => decide (s.start ≤ e) && decide (e < s.«end»)) = none := by
  intro l
  induction l with
  | nil => intro t0 i e _ _; rfl
  | cons s rest ih =>
    intro t0 i e hnn hle
    have hrest_nn : 0 ≤ durSum rest := by
      apply List.sum_nonneg
      intro x hx
      simp only [List.mem_map] at hx
      obtain ⟨y, hy, rfl⟩ := hx
      exact hnn y (List.mem_cons_of_mem s hy)
    have hds : durSum (s :: rest) = s.duration + durSum rest := by simp [durSum]
    rw [hds] at hle
    rw [show buildTimings (s :: rest) t0 i =
      ⟨t0, t0 + s.duration, i⟩ :: buildTimings rest (t0 + s.duration) (i + 1) from rfl]
    rw [List.find?_cons_of_neg]
    · exact ih (t0 + s.duration) (i + 1) e
        (fun x hx => hnn x (List.mem_cons_of_mem s hx)) (by linarith)
    · simp only [Bool.and_eq_true, decide_eq_true_eq, not_and]
      intro _
      show ¬ e < t0 + s.duration
      linarith

theorem buildTimings_find?_mem : ∀ (l : List Scene) (t0 : ℚ) (i : ℕ) (e : ℚ),
    t0 ≤ e → e < t0 + durSum l →
    ∃ st, (buildTimings l t0 i).find?
      (fun s => decide (s.start ≤ e) && decide (e < s.«end»)) = some st := by
  intro l
  induction l with
  | nil =>
    intro t0 i e h1 h2
    exfalso
    simp [durSum] at h2
    linarith
  | cons s rest ih =>
    intro t0 i e h1 h2
    rw [show buildTimings (s :: rest) t0 i =
      ⟨t0, t0 + s.duration, i⟩ :: buildTimings rest (t0 + s.duration) (i + 1) from rfl]
    by_cases hc : e < t0 + s.duration
    · refine ⟨⟨t0, t0 + s.duration, i⟩, ?_⟩
      apply List.find?_cons_of_pos
      simp only [Bool.and_eq_true, decide_eq_true_eq]
      exact ⟨h1, hc⟩
    · rw [List.find?_cons_of_neg]
      · refine ih (t0 + s.duration) (i + 1) e (not_lt.mp hc) ?_
        have hds : durSum (s :: rest) = s.duration + durSum rest := by simp [durSum]
        rw [hds] at h2
        linarith
      · simp only [Bool.and_eq_true, decide_eq_true_eq, not_and]
        intro _
        exact hc

/-- C2: for a non-empty scene list with strictly positive durations and any
`t ≥ 0`, the capture loop's active-scene lookup is total: for
`t < totalDuration` it returns the unique timing interval whose
`[start, end)` contains `t`, and for `t ≥ totalDuration` it clamps to the
last interval instead of failing. -/
theorem activeSceneAt_total (scenes : List Scene) (t : ℚ)
    (hne : scenes ≠ []) (hpos : ∀ s ∈ scenes, 0 < s.duration) (ht : 0 ≤ t) :
    (t < totalDuration scenes →
      ∃ st, currentSceneAt (sceneTimings scenes) t = some st ∧
        st ∈ sceneTimings scenes ∧ st.start ≤ t ∧ t < st.«end» ∧
        ∀ st' ∈ sceneTimings scenes, st'.start ≤ t → t < st'.«end» → st' = st) ∧
    (totalDuration scenes ≤ t →
      currentSceneAt (sceneTimings scenes) t = (sceneTimings scenes).getLast? ∧
      ∃ last, (sceneTimings scenes).getLast? = some last) := by
  have key : ∀ (a b : ℕ) (x y : SceneTiming), a < b →
      (sceneTimings scenes).get? a = some x →
      (sceneTimings scenes).get? b = some y →
      t < x.«end» → y.start ≤ t → False := by
    intro a b x y hab hga hgb hx2 hy1
    have hla := (List.get?_eq_some.mp hga).1
    have hlb := (List.get?_eq_some.mp hgb).1
    rw [sceneTimings_length] at hla hlb
    rw [sceneTimings_get? scenes a hla] at hga
    rw [sceneTimings_get? scenes b hlb] at hgb
    rw [← Option.some.inj hga] at hx2
    rw [← Option.some.inj hgb] at hy1
    dsimp only at hx2 hy1
    have hmono := durSum_take_mono scenes (fun s hs => le_of_lt (hpos s hs))
      (a + 1) b (by omega)
    linarith
  constructor
  · intro hlt
    obtain ⟨st, hf⟩ := buildTimings_find?_mem scenes 0 0 t ht
      (by rw [totalDuration_eq_durSum] at hlt; linarith)
    have hf' : (sceneTimings scenes).find?
        (fun s => decide (s.start ≤ t) && decide (t < s.«end»)) = some st := hf
    have hpred := List.find?_some hf'
    simp only [Bool.and_eq_true, decide_eq_true_eq] at hpred
    have hmem' := List.mem_of_find?_eq_some hf'
    refine ⟨st, by simp only [currentSceneAt, hf'], hmem', hpred.1, hpred.2, ?_⟩
    intro st' hst' h1' h2'
    obtain ⟨j, hj⟩ := List.mem_iff_get?.mp hst'
    obtain ⟨k, hk⟩ := List.mem_iff_get?.mp hmem'
    rcases Nat.lt_trichotomy j k with h | h | h
    · exact (key j k st' st h hj hk h2' hpred.1).elim
    · rw [h] at hj
      exact Option.some.inj (hj.symm.trans hk)
    · exact (key k j st st' h hk hj hpred.2 h1').elim
  · intro hge
    have hnone := buildTimings_find?_none scenes 0 0 t
      (fun s hs => le_of_lt (hpos s hs))
      (by rw [totalDuration_eq_durSum] at hge; linarith)
    have hnone' : (sceneTimings scenes).find?
        (fun s => decide (s.start ≤ t) && decide (t < s.«end»)) = none := hnone
    refine ⟨by simp only [currentSceneAt, hnone'], ?_⟩
    have hts : sceneTimings scenes ≠ [] := by
      intro hc
      apply hne
      have hlen := sceneTimings_length scenes
      rw [hc] at hlen
      exact List.length_eq_zero.mp hlen.symm
    cases hgl : (sceneTimings scenes).getLast? with
    | none => exact absurd (List.getLast?_eq_none_iff.mp hgl) hts
    | some last => exact ⟨last, rfl⟩

/-- Witness for `activeSceneAt_total` at one scene of duration 2 and
`t = 3` (past the end of the timeline): the lookup clamps to the last
interval. -/
theorem activeSceneAt_total_witness :
    currentSceneAt (sceneTimings [⟨"s1", 0, "a", "p", 2, none⟩]) 3 =
      (sceneTimings [⟨"s1", 0, "a", "p", 2, none⟩]).getLast? := by
  have h := (activeSceneAt_total [⟨"s1", 0, "a", "p", 2, none⟩] 3 (by simp)
    (by
      intro s hs
      rw [List.mem_singleton.mp hs]
      show (0:ℚ) < 2
      norm_num)
    (by norm_num)).2
  exact (h (by
    show totalDuration [⟨"s1", 0, "a", "p", 2, none⟩] ≤ 3
    rw [totalDuration_eq_durSum]
    show durSum [⟨"s1", 0, "a", "p", 2, none⟩] ≤ 3
    simp [durSum]
    norm_num)).1

/-! ## Composition outcome (`composeVideo`, lines 27-162; C3) -/

/-- The terminal result of `composeVideo`: a webm video blob, or `null`
after the surrounding try/catch (lines 157-161) caught an error, logged it
and reported `Error: ...` through `onProgress`. -/
inductive ComposeResult
  | videoBlob
  | nullAfterError (message : String)
deriving Repr, DecidableEq

/-- Outcome of `composeVideo` as decided by the scene list.  `composeVideo`
performs no validation of its input: the only failure mode determined by
the scene list is the capture loop's first tick (line 133) dereferencing
`currentScene.image`, where `currentScene` is
`sceneTimings.find(...) || sceneTimings[sceneTimings.length - 1]`
(lines 129-131) — `undefined` exactly when `sceneTimings` is empty, i.e.
with zero scenes — raising a TypeError that the try/catch converts to a
`null` return.  With at least one scene the `||` clamp always yields a
timing, every tick draws a frame, the loop reaches
`elapsed >= totalDuration` (the wall clock advances; with total duration 0
the first tick already satisfies it), the recorder stops, and the
accumulated chunks are returned as a webm blob. -/
def composeVideoResult (scenes : List Scene) : ComposeResult :=
  if (sceneTimings scenes).isEmpty then
    .nullAfterError "TypeError: currentScene is undefined"
  else .videoBlob

/-- C3 counterexample: one scene of duration 0 gives a timeline of total
duration 0, yet composition does not fail — it completes and produces a
video artifact, so no `EmptyTimeline` (or any) error is raised. -/
theorem emptyTimeline_counterexample :
    totalDuration [⟨"s1", 0, "a", "p", 0, none⟩] = 0 ∧
    composeVideoResult [⟨"s1", 0, "a", "p", 0, none⟩] = .videoBlob := by
  constructor
  · rw [totalDuration_eq_durSum]
    simp [durSum]
  · rfl

/-- C3 as amended: the code has no `EmptyTimeline` validation.  With zero
scenes the capture loop's scene lookup is `undefined` on the first tick,
the resulting TypeError is caught, and `composeVideo` returns `null` — no
artifact, though audio playback and the recorder were already started.
With a non-empty scene list, even of zero total duration, composition
completes and returns a video artifact. -/
theorem composeVideo_error_behavior (scenes : List Scene) :
    (scenes = [] → composeVideoResult scenes =
      .nullAfterError "TypeError: currentScene is undefined") ∧
    (scenes ≠ [] → composeVideoResult scenes = .videoBlob) ∧
    (currentSceneAt (sceneTimings scenes) 0 = none ↔ scenes = []) := by
  have himp : sceneTimings scenes = [] → scenes = [] := by
    intro hc
    have hlen := sceneTimings_length scenes
    rw [hc] at hlen
    exact List.length_eq_zero.mp hlen.symm
  refine ⟨?_, ?_, ?_, ?_⟩
  · intro h
    subst h
    rfl
  · intro h
    rw [composeVideoResult, if_neg ?_]
    intro hc
    rw [List.isEmpty_iff] at hc
    exact h (himp hc)
  · intro hc
    apply himp
    rw [currentSceneAt] at hc
    cases hf : (sceneTimings scenes).find?
        (fun s => decide (s.start ≤ 0) && decide ((0:ℚ) < s.«end»)) with
    | some st =>
      rw [hf] at hc
      simp at hc
    | none =>
      rw [hf] at hc
      exact List.getLast?_eq_none_iff.mp hc
  · intro h
    subst h
    rfl

/-- Witness for `composeVideo_error_behavior`: zero scenes yield the caught
TypeError and a `null` return; one scene yields a video artifact. -/
theorem composeVideo_error_behavior_witness :
    composeVideoResult [] = .nullAfterError "TypeError: currentScene is undefined" ∧
    composeVideoResult [⟨"s1", 0, "a", "p", 2, none⟩] = .videoBlob :=
  ⟨(composeVideo_error_behavior []).1 rfl,
   (composeVideo_error_behavior [⟨"s1", 0, "a", "p", 2, none⟩]).2.1 (by simp)⟩

end AutoVid
